import Mathlib

/-!
Verification of the vadcondense segment pipeline.

Shallow embedding of the repository code:
- `internal/vad` (`CondenseWithOptions`, the per-file condense pipeline),
- `app.go` (`App.CondenseFiles`, the batch orchestrator),
with the external collaborators (ffmpeg decode/encode, the silero speech
detector, the wails event sink, the process-wide slog default logger)
modelled as an explicit environment and explicit state.

Time values (Go float64 seconds) are modelled as rationals; machine-word
overflow plays no role in the modelled code paths.
-/

/-- One speech interval as returned by the silero detector
(`speech.Segment` with fields `SpeechStartAt`, `SpeechEndAt`, in seconds). -/
structure SpeechSegment where
  SpeechStartAt : ℚ
  SpeechEndAt : ℚ
deriving DecidableEq, Repr

/-- The detector configuration built by `CondenseWithOptions`
(field `ProgressCallback` is passed to the environment separately,
since it is a function value, not data). -/
structure DetectorConfig where
  ModelPath : String
  SampleRate : ℤ
  Threshold : ℚ
  MinSilenceDurationMs : ℤ
  SpeechPadMs : ℤ
deriving DecidableEq

/-- The process-wide `slog` default logger. `CondenseWithOptions` swaps it to
a fresh logger writing to `io.Discard` around the `sd.Detect` call. -/
inductive Logger where
  | handler (id : ℕ)
  | discardText
deriving DecidableEq, Repr

/-- Correctly rounded integer number of centiseconds of a rational time value:
models what Go `fmt.Sprintf` with verb `%.2f` computes for the (exactly
represented) float value, i.e. round to nearest with ties to even.
Implemented on numerator and denominator so that the kernel can evaluate it. -/
def round2cent (q : ℚ) : ℤ :=
  let n := 100 * q.num
  let d := (q.den : ℤ)
  let f := Int.fdiv n d
  let r := n - f * d
  if 2 * r < d then f
  else if d < 2 * r then f + 1
  else if f % 2 = 0 then f else f + 1

/-- Left-pads a two-digit fractional part with a zero. -/
def pad2 (m : ℕ) : String :=
  if m < 10 then "0" ++ toString m else toString m

/-- Renders `c` centiseconds as a fixed two-decimal-place decimal string. -/
def fmt2c (c : ℤ) : String :=
  if c < 0 then "-" ++ toString ((-c).toNat / 100) ++ "." ++ pad2 ((-c).toNat % 100)
  else toString (c.toNat / 100) ++ "." ++ pad2 (c.toNat % 100)

/-- Models Go `fmt.Sprintf` with verb `%.2f` applied to a time value. -/
def fmt2 (q : ℚ) : String := fmt2c (round2cent q)

/-- The exact rational value denoted by the two-decimal numeral that `%.2f`
prints for `q`. -/
def round2val (q : ℚ) : ℚ := (round2cent q : ℚ) / 100

/-- The single-quote character, used by the generated ffmpeg filter string. -/
def quoteS : String := String.singleton (Char.ofNat 39)

/-- One `between` term of the ffmpeg `aselect` filter:
`fmt.Sprintf("between(t,%.2f,%.2f)", s.SpeechStartAt, s.SpeechEndAt)`. -/
def betweenCut (s : SpeechSegment) : String :=
  "between(t," ++ fmt2 s.SpeechStartAt ++ "," ++ fmt2 s.SpeechEndAt ++ ")"

/-- The `cuts` slice built by `CondenseWithOptions`: one term per segment. -/
def cutsOf (segs : List SpeechSegment) : List String :=
  segs.map betweenCut

/-- Models Go `strings.Join(elems, sep)`. -/
def joinSep (sep : String) : List String → String
  | [] => ""
  | [x] => x
  | x :: y :: rest => x ++ sep ++ joinSep sep (y :: rest)

/-- The audio filter string built by `CondenseWithOptions`: the plus-joined
cuts, wrapped in single quotes after `aselect=` and followed by
`,asetpts=N/SR/TB`, exactly as the source sprintf builds it. -/
def afOf (segs : List SpeechSegment) : String :=
  "aselect=" ++ quoteS ++ joinSep "+" (cutsOf segs) ++ quoteS ++ ",asetpts=N/SR/TB"

/-- Helper for Go `path/filepath.Clean`: copies one path element
(characters up to the next separator) onto the reversed output buffer. -/
def cleanCopy : List Char → List Char → List Char × List Char
  | [], out => ([], out)
  | c :: rest, out =>
    if c = '/' then (c :: rest, out) else cleanCopy rest (c :: out)

/-- Helper for Go `path/filepath.Clean`: the backtracking loop of the
double-dot case, which keeps truncating the output buffer while the width
exceeds `dotdot` and the character just removed is not a separator; the
buffer is kept reversed and `c` is the character removed last. -/
def cleanBacktrack (dotdot : ℕ) : Char → List Char → List Char
  | _, [] => []
  | c, c2 :: r2 =>
    if dotdot < (c2 :: r2).length ∧ c ≠ '/' then cleanBacktrack dotdot c2 r2
    else c2 :: r2

/-- The main loop of Go `path/filepath.Clean` (unix separators), translated
with the output buffer kept reversed.  The fuel argument only bounds the
iteration count; every iteration consumes at least one input character, so
`path.length + 1` fuel is never exhausted. -/
def cleanLoop (rooted : Bool) : ℕ → List Char → List Char → ℕ → List Char
  | 0, _, out, _ => out
  | _ + 1, [], out, _ => out
  | fuel + 1, c :: rest, out, dotdot =>
    if c = '/' then
      cleanLoop rooted fuel rest out dotdot
    else if c = '.' ∧ (rest = [] ∨ rest.head? = some '/') then
      cleanLoop rooted fuel rest out dotdot
    else if c = '.' ∧ rest.head? = some '.' ∧ (rest.tail = [] ∨ rest.tail.head? = some '/') then
      if dotdot < out.length then
        match out with
        | [] => cleanLoop rooted fuel rest.tail out dotdot
        | oc :: orest => cleanLoop rooted fuel rest.tail (cleanBacktrack dotdot oc orest) dotdot
      else if rooted = false then
        let out2 := if 0 < out.length then '.' :: '.' :: '/' :: out else '.' :: '.' :: out
        cleanLoop rooted fuel rest.tail out2 out2.length
      else
        cleanLoop rooted fuel rest.tail out dotdot
    else
      let out1 := if (rooted = true ∧ out.length ≠ 1) ∨ (rooted = false ∧ out.length ≠ 0)
        then '/' :: out else out
      let step := cleanCopy (c :: rest) out1
      cleanLoop rooted fuel step.1 step.2 dotdot

/-- Go `path/filepath.Clean` for unix paths. -/
def cleanGo (path : String) : String :=
  if path = "" then "." else
  let l := path.toList
  let rooted := l.head? = some '/'
  let out :=
    if rooted then cleanLoop true (l.length + 1) l.tail ['/'] 1
    else cleanLoop false (l.length + 1) l [] 0
  if out.length = 0 then "." else String.mk out.reverse

/-- Helper for Go `path/filepath.Ext`: walks the reversed character list
until a separator, returning the suffix from the last dot (inclusive). -/
def extScan : List Char → List Char → Option (List Char)
  | [], _ => none
  | c :: rest, acc =>
    if c = '/' then none
    else if c = '.' then some (c :: acc)
    else extScan rest (c :: acc)

/-- Go `path/filepath.Ext`: the suffix beginning at the final dot in the
final slash-separated element; empty if there is no dot. -/
def extGo (path : String) : String :=
  match extScan path.toList.reverse [] with
  | none => ""
  | some l => String.mk l

/-- Go `path/filepath.Base` for unix paths. -/
def baseGo (path : String) : String :=
  if path = "" then "." else
  let l := (path.toList.reverse.dropWhile (fun c => c = '/')).reverse
  let b := (l.reverse.takeWhile (fun c => c ≠ '/')).reverse
  if b = [] then "/" else String.mk b

/-- Go `path/filepath.Dir` for unix paths: everything up to and including
the final separator, then `Clean`. -/
def dirGo (path : String) : String :=
  cleanGo (String.mk (path.toList.reverse.dropWhile (fun c => c ≠ '/')).reverse)

/-- Go `strings.TrimSuffix`. -/
def trimSuffixGo (s suffix : String) : String :=
  if (s.toList.reverse.take suffix.toList.length) = suffix.toList.reverse then
    String.mk (s.toList.take (s.toList.length - suffix.toList.length))
  else s

/-- Go `path/filepath.Join` restricted to two elements, as used by
`CondenseWithOptions`. -/
def joinGo (a b : String) : String :=
  if a ≠ "" then cleanGo (a ++ "/" ++ b)
  else if b ≠ "" then cleanGo b
  else ""

/-- The output path computation of `CondenseWithOptions` (lines 181 to 189):
extension, base name and directory of the input, defaulting of `outDir`,
then `filepath.Join(outDir, strings.TrimSuffix(baseName, ext)+outSuffix+"."+outFormat)`. -/
def resolveOutName (inFile outDir outSuffix outFormat : String) : String :=
  let ext := extGo inFile
  let baseName := baseGo inFile
  let inDir := dirGo inFile
  let outDir2 := if outDir = "" then inDir else outDir
  joinGo outDir2 (trimSuffixGo baseName ext ++ outSuffix ++ "." ++ outFormat)

/-- Behaviour of the external collaborators during one run: ffmpeg decode,
detector construction, detection (with the progress values the detector
reports through the configured progress callback), and the ffmpeg export
invocation.  Errors carry the message text the collaborator produced. -/
structure Env where
  decode : String → Except String (List ℚ)
  newDetector : DetectorConfig → Except String Unit
  detect : List ℚ → Except String (List SpeechSegment)
  detectProgress : List ℚ
  runExport : List String → Except String Unit

/-- Everything observable about one `CondenseWithOptions` call:
the strings passed to the status callback (in order), the events the two
callbacks delivered, the ffmpeg export invocations with their argument
lists, the segment list handed to the filter-string construction, the
default logger in effect while `sd.Detect` ran, the default logger after
the call returned, and the returned error. -/
structure CondenseResult (Ev : Type) where
  stages : List String
  statusDelivered : List Ev
  progressDelivered : List Ev
  exportCalls : List (List String)
  compiledSegments : Option (List SpeechSegment)
  loggerAtDetect : Option Logger
  logger : Logger
  result : Except String Unit

/-- Shallow embedding of `vad.CondenseWithOptions` (internal/vad, lines 119
to 211).  Callbacks are optional; a `none` callback is replaced by a no-op
before use, exactly as in the source.  The process-wide default logger is
threaded as explicit state (`logger0` is its value on entry). -/
def CondenseWithOptions {Ev : Type} (env : Env)
    (inFile outDir outSuffix outFormat : String)
    (threshold : ℚ) (minSilenceDuration padMs : ℤ)
    (progressCallback0 : Option (ℚ → List Ev))
    (statusCallback0 : Option (String → List Ev))
    (logger0 : Logger) : CondenseResult Ev :=
  let progressCallback := progressCallback0.getD (fun _ => [])
  let statusCallback := statusCallback0.getD (fun _ => [])
  let stages1 := ["loading"]
  let del1 := statusCallback "loading"
  match env.decode inFile with
  | .error e =>
    ⟨stages1, del1, [], [], none, none, logger0,
      .error ("failed to decode audio file: " ++ e)⟩
  | .ok samples =>
    let stages2 := stages1 ++ ["detecting"]
    let del2 := del1 ++ statusCallback "detecting"
    match env.newDetector ⟨"./silero_vad.onnx", 16000, threshold, minSilenceDuration, padMs⟩ with
    | .error e =>
      ⟨stages2, del2, [], [], none, none, logger0,
        .error ("failed to create speech detector: " ++ e)⟩
    | .ok _ =>
      let originalDefault := logger0
      let swapped := Logger.discardText
      let progressDel := env.detectProgress.flatMap progressCallback
      let restored := originalDefault
      match env.detect samples with
      | .error e =>
        ⟨stages2, del2, progressDel, [], none, some swapped, restored,
          .error ("speech detection failed: " ++ e)⟩
      | .ok segments =>
        if segments = [] then
          ⟨stages2, del2, progressDel, [], none, some swapped, restored,
            .error ("no speech detected in file: " ++ inFile)⟩
        else
          let af := afOf segments
          let outName := resolveOutName inFile outDir outSuffix outFormat
          let stages3 := stages2 ++ ["exporting"]
          let del3 := del2 ++ statusCallback "exporting"
          let args := ["-y", "-i", inFile, "-vn", "-af", af, outName]
          match env.runExport args with
          | .error e =>
            ⟨stages3, del3, progressDel, [args], some segments, some swapped, restored,
              .error ("ffmpeg error: " ++ e)⟩
          | .ok _ =>
            ⟨stages3, del3, progressDel, [args], some segments, some swapped, restored,
              .ok ()⟩

/-- One event emitted to the wails `condense:progress` event stream
(the Go `CondenseProgress` struct). -/
structure CondenseProgress where
  filePath : String
  status : String
  error : String
deriving DecidableEq, Repr

/-- The Go `CondenseOptions` struct. -/
structure CondenseOptions where
  OutputSuffix : String
  OutputDir : String
  OutputFormat : String
  VadThreshold : ℚ
  MinSilenceDuration : ℤ
  SpeechPaddingMs : ℤ

/-- The terminal event `App.CondenseFiles` emits for one file, from the
error returned by `CondenseWithOptions`. -/
def terminalEvent (filePath : String) : Except String Unit → CondenseProgress
  | .ok _ => ⟨filePath, "completed", ""⟩
  | .error m => ⟨filePath, "error", m⟩

/-- The per-file status callback `App.CondenseFiles` installs: every call
emits one `condense:progress` event carrying the file path and the status. -/
def appStatusCallback (filePath : String) : String → List CondenseProgress :=
  fun status => [⟨filePath, status, ""⟩]

/-- The full event subsequence one file contributes to the
`condense:progress` stream: the `pending` announcement, the events emitted
through the status callback, then the terminal event. -/
def jobTrace (env : Env) (options : CondenseOptions) (lg : Logger) (filePath : String) :
    List CondenseProgress :=
  let r := CondenseWithOptions env filePath options.OutputDir options.OutputSuffix
    options.OutputFormat options.VadThreshold options.MinSilenceDuration
    options.SpeechPaddingMs none (some (appStatusCallback filePath)) lg
  ⟨filePath, "pending", ""⟩ :: (r.statusDelivered ++ [terminalEvent filePath r.result])

/-- Shallow embedding of `App.CondenseFiles` (app.go, lines 53 to 101):
iterates the file list in order, emits the `pending` event, runs the
pipeline with a nil progress callback and the event-emitting status
callback, then emits the terminal event; the batch itself returns nothing.
Returns the emitted event stream and the final default logger. -/
def condenseFiles (env : Env) (options : CondenseOptions) :
    Logger → List String → List CondenseProgress × Logger
  | lg, [] => ([], lg)
  | lg, filePath :: rest =>
    let r := CondenseWithOptions env filePath options.OutputDir options.OutputSuffix
      options.OutputFormat options.VadThreshold options.MinSilenceDuration
      options.SpeechPaddingMs none (some (appStatusCallback filePath)) lg
    let restRun := condenseFiles env options r.logger rest
    (⟨filePath, "pending", ""⟩ :: (r.statusDelivered ++ terminalEvent filePath r.result :: restRun.1),
      restRun.2)

/-- The stage names of the per-job state machine, in transition order. -/
def stageNames : List String := ["pending", "loading", "detecting", "exporting"]

/-- A well-formed per-job event subsequence: some prefix of the stage
sequence (always at least `pending, loading`), followed by exactly one
terminal event, which is `completed` only after all four stages. -/
def ValidJobTrace (filePath : String) (tr : List CondenseProgress) : Prop :=
  ∃ n t e, 2 ≤ n ∧ n ≤ 4 ∧ (t = "completed" ∨ t = "error") ∧
    (t = "completed" → n = 4 ∧ e = "") ∧
    tr = (stageNames.take n).map (fun s => ⟨filePath, s, ""⟩) ++ [⟨filePath, t, e⟩]

/-- Membership of a time in the closed interval of a segment. -/
def segMem (t : ℚ) (s : SpeechSegment) : Prop :=
  s.SpeechStartAt ≤ t ∧ t ≤ s.SpeechEndAt

/-- Membership of a time in the union of the intervals of a segment list. -/
def coveredBy (t : ℚ) (l : List SpeechSegment) : Prop :=
  ∃ s ∈ l, segMem t s

/-- Decidable check of the section-3 normalization invariant: sorted
ascending by start and pairwise non-overlapping (each end at most the next
start). -/
def nonOverlapB : List SpeechSegment → Bool
  | [] => true
  | [_] => true
  | a :: b :: rest =>
    (decide (a.SpeechStartAt ≤ b.SpeechStartAt) &&
      decide (a.SpeechEndAt ≤ b.SpeechStartAt)) && nonOverlapB (b :: rest)

/-- Ordering of segments by start time, used by the modelled sort. -/
def segLe (a b : SpeechSegment) : Prop :=
  a.SpeechStartAt ≤ b.SpeechStartAt

instance : DecidableRel segLe := fun a b => inferInstanceAs (Decidable (_ ≤ _))

instance : IsTotal SpeechSegment segLe := ⟨fun a b => le_total _ _⟩

instance : IsTrans SpeechSegment segLe := ⟨fun _ _ _ => le_trans⟩

/-- Modelled from the spec: the coalescing pass of the Segment
Validator/Merger (spec section 4.2), which is absent from the source.
Iterating over the sorted list, a segment whose start is before the end of
the previous segment is merged with it into one segment spanning the
minimum start to the maximum end; otherwise the previous segment is kept. -/
def coalesceAux (prev : SpeechSegment) : List SpeechSegment → List SpeechSegment
  | [] => [prev]
  | b :: rest =>
    if b.SpeechStartAt < prev.SpeechEndAt then
      coalesceAux ⟨min prev.SpeechStartAt b.SpeechStartAt, max prev.SpeechEndAt b.SpeechEndAt⟩ rest
    else
      prev :: coalesceAux b rest

/-- Modelled from the spec: the Segment Validator/Merger policy of spec
section 4.2 (absent from the source): sort by start ascending, then merge
any segment whose start is before the end of the previous segment. -/
def mergeSegments (segs : List SpeechSegment) : List SpeechSegment :=
  match List.insertionSort segLe segs with
  | [] => []
  | s :: rest => coalesceAux s rest

/-- Modelled from the spec: the ffmpeg selection-expression grammar the
compiled filter uses, with its time-selection semantics (a `between` term
is 1 when the time lies in the closed interval denoted by its two-decimal
numerals, 0 otherwise; `+` sums terms; a sample is kept when the value is
nonzero).  A `between` node carries its two numerals in centiseconds. -/
inductive FilterAST where
  | between (a b : ℤ)
  | sum (l r : FilterAST)

/-- The numeric value of a filter expression at time `t`. -/
def FilterAST.eval : FilterAST → ℚ → ℚ
  | .between a b, t => if (a : ℚ) / 100 ≤ t ∧ t ≤ (b : ℚ) / 100 then 1 else 0
  | .sum l r, t => l.eval t + r.eval t

/-- The textual rendering of a filter expression. -/
def FilterAST.serialize : FilterAST → String
  | .between a b => "between(t," ++ fmt2c a ++ "," ++ fmt2c b ++ ")"
  | .sum l r => l.serialize ++ "+" ++ r.serialize

/-- The expression the pipeline compiles from a segment list: one
`between` term per segment (bounds rounded to centiseconds exactly as the
`%.2f` serialization rounds them), joined by `+`. -/
def compileAST : List SpeechSegment → Option FilterAST
  | [] => none
  | s :: rest =>
    let term := FilterAST.between (round2cent s.SpeechStartAt) (round2cent s.SpeechEndAt)
    match compileAST rest with
    | none => some term
    | some a => some (.sum term a)


/-- Run characterization: decode fails. -/
theorem condense_run_decode_error {Ev : Type} (env : Env)
    (inFile outDir outSuffix outFormat : String) (threshold : ℚ)
    (minSilenceDuration padMs : ℤ) (pc : Option (ℚ → List Ev))
    (sc : Option (String → List Ev)) (lg : Logger) (e : String)
    (hdec : env.decode inFile = .error e) :
    CondenseWithOptions env inFile outDir outSuffix outFormat threshold
      minSilenceDuration padMs pc sc lg =
    ⟨["loading"], (sc.getD fun _ => []) "loading", [], [], none, none, lg,
      .error ("failed to decode audio file: " ++ e)⟩ := by
  simp only [CondenseWithOptions, hdec]

/-- Run characterization: decode succeeds, detector construction fails. -/
theorem condense_run_newdet_error {Ev : Type} (env : Env)
    (inFile outDir outSuffix outFormat : String) (threshold : ℚ)
    (minSilenceDuration padMs : ℤ) (pc : Option (ℚ → List Ev))
    (sc : Option (String → List Ev)) (lg : Logger) (samples : List ℚ) (e : String)
    (hdec : env.decode inFile = .ok samples)
    (hnd : env.newDetector ⟨"./silero_vad.onnx", 16000, threshold, minSilenceDuration, padMs⟩ = .error e) :
    CondenseWithOptions env inFile outDir outSuffix outFormat threshold
      minSilenceDuration padMs pc sc lg =
    ⟨["loading", "detecting"],
      (sc.getD fun _ => []) "loading" ++ (sc.getD fun _ => []) "detecting",
      [], [], none, none, lg,
      .error ("failed to create speech detector: " ++ e)⟩ := by
  simp only [CondenseWithOptions, hdec, hnd]
  rfl

/-- Run characterization: detection fails. -/
theorem condense_run_detect_error {Ev : Type} (env : Env)
    (inFile outDir outSuffix outFormat : String) (threshold : ℚ)
    (minSilenceDuration padMs : ℤ) (pc : Option (ℚ → List Ev))
    (sc : Option (String → List Ev)) (lg : Logger) (samples : List ℚ) (e : String)
    (hdec : env.decode inFile = .ok samples)
    (hnd : env.newDetector ⟨"./silero_vad.onnx", 16000, threshold, minSilenceDuration, padMs⟩ = .ok ())
    (hdet : env.detect samples = .error e) :
    CondenseWithOptions env inFile outDir outSuffix outFormat threshold
      minSilenceDuration padMs pc sc lg =
    ⟨["loading", "detecting"],
      (sc.getD fun _ => []) "loading" ++ (sc.getD fun _ => []) "detecting",
      env.detectProgress.flatMap (pc.getD fun _ => []), [], none,
      some Logger.discardText, lg,
      .error ("speech detection failed: " ++ e)⟩ := by
  simp only [CondenseWithOptions, hdec, hnd, hdet]
  rfl

/-- Run characterization: detection returns the empty segment list. -/
theorem condense_run_no_speech {Ev : Type} (env : Env)
    (inFile outDir outSuffix outFormat : String) (threshold : ℚ)
    (minSilenceDuration padMs : ℤ) (pc : Option (ℚ → List Ev))
    (sc : Option (String → List Ev)) (lg : Logger) (samples : List ℚ)
    (hdec : env.decode inFile = .ok samples)
    (hnd : env.newDetector ⟨"./silero_vad.onnx", 16000, threshold, minSilenceDuration, padMs⟩ = .ok ())
    (hdet : env.detect samples = .ok []) :
    CondenseWithOptions env inFile outDir outSuffix outFormat threshold
      minSilenceDuration padMs pc sc lg =
    ⟨["loading", "detecting"],
      (sc.getD fun _ => []) "loading" ++ (sc.getD fun _ => []) "detecting",
      env.detectProgress.flatMap (pc.getD fun _ => []), [], none,
      some Logger.discardText, lg,
      .error ("no speech detected in file: " ++ inFile)⟩ := by
  simp only [CondenseWithOptions, hdec, hnd, hdet, if_pos]
  rfl

/-- Run characterization: export fails. -/
theorem condense_run_export_error {Ev : Type} (env : Env)
    (inFile outDir outSuffix outFormat : String) (threshold : ℚ)
    (minSilenceDuration padMs : ℤ) (pc : Option (ℚ → List Ev))
    (sc : Option (String → List Ev)) (lg : Logger) (samples : List ℚ)
    (segments : List SpeechSegment) (e : String)
    (hdec : env.decode inFile = .ok samples)
    (hnd : env.newDetector ⟨"./silero_vad.onnx", 16000, threshold, minSilenceDuration, padMs⟩ = .ok ())
    (hdet : env.detect samples = .ok segments) (hne : segments ≠ [])
    (hexp : env.runExport ["-y", "-i", inFile, "-vn", "-af", afOf segments,
      resolveOutName inFile outDir outSuffix outFormat] = .error e) :
    CondenseWithOptions env inFile outDir outSuffix outFormat threshold
      minSilenceDuration padMs pc sc lg =
    ⟨["loading", "detecting", "exporting"],
      (sc.getD fun _ => []) "loading" ++ (sc.getD fun _ => []) "detecting" ++
        (sc.getD fun _ => []) "exporting",
      env.detectProgress.flatMap (pc.getD fun _ => []),
      [["-y", "-i", inFile, "-vn", "-af", afOf segments,
        resolveOutName inFile outDir outSuffix outFormat]],
      some segments, some Logger.discardText, lg,
      .error ("ffmpeg error: " ++ e)⟩ := by
  simp only [CondenseWithOptions, hdec, hnd, hdet, if_neg hne, hexp]
  rfl

/-- Run characterization: the whole pipeline succeeds. -/
theorem condense_run_ok {Ev : Type} (env : Env)
    (inFile outDir outSuffix outFormat : String) (threshold : ℚ)
    (minSilenceDuration padMs : ℤ) (pc : Option (ℚ → List Ev))
    (sc : Option (String → List Ev)) (lg : Logger) (samples : List ℚ)
    (segments : List SpeechSegment)
    (hdec : env.decode inFile = .ok samples)
    (hnd : env.newDetector ⟨"./silero_vad.onnx", 16000, threshold, minSilenceDuration, padMs⟩ = .ok ())
    (hdet : env.detect samples = .ok segments) (hne : segments ≠ [])
    (hexp : env.runExport ["-y", "-i", inFile, "-vn", "-af", afOf segments,
      resolveOutName inFile outDir outSuffix outFormat] = .ok ()) :
    CondenseWithOptions env inFile outDir outSuffix outFormat threshold
      minSilenceDuration padMs pc sc lg =
    ⟨["loading", "detecting", "exporting"],
      (sc.getD fun _ => []) "loading" ++ (sc.getD fun _ => []) "detecting" ++
        (sc.getD fun _ => []) "exporting",
      env.detectProgress.flatMap (pc.getD fun _ => []),
      [["-y", "-i", inFile, "-vn", "-af", afOf segments,
        resolveOutName inFile outDir outSuffix outFormat]],
      some segments, some Logger.discardText, lg, .ok ()⟩ := by
  simp only [CondenseWithOptions, hdec, hnd, hdet, if_neg hne, hexp]
  rfl

/-- A list extended with a final element has that element as its last. -/
theorem getLast?_append_single {α : Type} (a : α) :
    ∀ l : List α, (l ++ [a]).getLast? = some a := by
  intro l
  induction l with
  | nil => rfl
  | cons x xs ih =>
    cases xs with
    | nil => rfl
    | cons y ys => simpa using ih

/-- The pipeline restores the process-wide default logger on every return
path: the final logger always equals the logger on entry. -/
theorem condense_logger_eq {Ev : Type} (env : Env)
    (inFile outDir outSuffix outFormat : String) (threshold : ℚ)
    (minSilenceDuration padMs : ℤ) (pc : Option (ℚ → List Ev))
    (sc : Option (String → List Ev)) (lg : Logger) :
    (CondenseWithOptions env inFile outDir outSuffix outFormat threshold
      minSilenceDuration padMs pc sc lg).logger = lg := by
  cases hdec : env.decode inFile with
  | error e =>
    rw [condense_run_decode_error env inFile outDir outSuffix outFormat threshold
      minSilenceDuration padMs pc sc lg e hdec]
  | ok samples =>
    cases hnd : env.newDetector ⟨"./silero_vad.onnx", 16000, threshold, minSilenceDuration, padMs⟩ with
    | error e =>
      rw [condense_run_newdet_error env inFile outDir outSuffix outFormat threshold
        minSilenceDuration padMs pc sc lg samples e hdec hnd]
    | ok u =>
      cases u
      cases hdet : env.detect samples with
      | error e =>
        rw [condense_run_detect_error env inFile outDir outSuffix outFormat threshold
          minSilenceDuration padMs pc sc lg samples e hdec hnd hdet]
      | ok segments =>
        rcases eq_or_ne segments [] with hseg | hseg
        · subst hseg
          rw [condense_run_no_speech env inFile outDir outSuffix outFormat threshold
            minSilenceDuration padMs pc sc lg samples hdec hnd hdet]
        · cases hexp : env.runExport ["-y", "-i", inFile, "-vn", "-af", afOf segments,
            resolveOutName inFile outDir outSuffix outFormat] with
          | error e =>
            rw [condense_run_export_error env inFile outDir outSuffix outFormat threshold
              minSilenceDuration padMs pc sc lg samples segments e hdec hnd hdet hseg hexp]
          | ok u2 =>
            cases u2
            rw [condense_run_ok env inFile outDir outSuffix outFormat threshold
              minSilenceDuration padMs pc sc lg samples segments hdec hnd hdet hseg hexp]

/-- Every per-job event subsequence is a well-formed run of the state
machine: the stage prefix in order, then exactly one terminal event. -/
theorem jobTrace_valid (env : Env) (options : CondenseOptions) (lg : Logger) (f : String) :
    ValidJobTrace f (jobTrace env options lg f) := by
  unfold ValidJobTrace jobTrace
  cases hdec : env.decode f with
  | error e =>
    rw [condense_run_decode_error env f options.OutputDir options.OutputSuffix
      options.OutputFormat options.VadThreshold options.MinSilenceDuration
      options.SpeechPaddingMs none (some (appStatusCallback f)) lg e hdec]
    exact ⟨2, "error", "failed to decode audio file: " ++ e, by decide, by decide,
      Or.inr rfl, fun h => absurd h (by decide), rfl⟩
  | ok samples =>
    cases hnd : env.newDetector ⟨"./silero_vad.onnx", 16000, options.VadThreshold,
        options.MinSilenceDuration, options.SpeechPaddingMs⟩ with
    | error e =>
      rw [condense_run_newdet_error env f options.OutputDir options.OutputSuffix
        options.OutputFormat options.VadThreshold options.MinSilenceDuration
        options.SpeechPaddingMs none (some (appStatusCallback f)) lg samples e hdec hnd]
      exact ⟨3, "error", "failed to create speech detector: " ++ e, by decide, by decide,
        Or.inr rfl, fun h => absurd h (by decide), rfl⟩
    | ok u =>
      cases u
      cases hdet : env.detect samples with
      | error e =>
        rw [condense_run_detect_error env f options.OutputDir options.OutputSuffix
          options.OutputFormat options.VadThreshold options.MinSilenceDuration
          options.SpeechPaddingMs none (some (appStatusCallback f)) lg samples e hdec hnd hdet]
        exact ⟨3, "error", "speech detection failed: " ++ e, by decide, by decide,
          Or.inr rfl, fun h => absurd h (by decide), rfl⟩
      | ok segments =>
        rcases eq_or_ne segments [] with hseg | hseg
        · subst hseg
          rw [condense_run_no_speech env f options.OutputDir options.OutputSuffix
            options.OutputFormat options.VadThreshold options.MinSilenceDuration
            options.SpeechPaddingMs none (some (appStatusCallback f)) lg samples hdec hnd hdet]
          exact ⟨3, "error", "no speech detected in file: " ++ f, by decide, by decide,
            Or.inr rfl, fun h => absurd h (by decide), rfl⟩
        · cases hexp : env.runExport ["-y", "-i", f, "-vn", "-af", afOf segments,
            resolveOutName f options.OutputDir options.OutputSuffix options.OutputFormat] with
          | error e =>
            rw [condense_run_export_error env f options.OutputDir options.OutputSuffix
              options.OutputFormat options.VadThreshold options.MinSilenceDuration
              options.SpeechPaddingMs none (some (appStatusCallback f)) lg samples segments e
              hdec hnd hdet hseg hexp]
            exact ⟨4, "error", "ffmpeg error: " ++ e, by decide, by decide,
              Or.inr rfl, fun h => absurd h (by decide), rfl⟩
          | ok u2 =>
            cases u2
            rw [condense_run_ok env f options.OutputDir options.OutputSuffix
              options.OutputFormat options.VadThreshold options.MinSilenceDuration
              options.SpeechPaddingMs none (some (appStatusCallback f)) lg samples segments
              hdec hnd hdet hseg hexp]
            exact ⟨4, "completed", "", by decide, by decide, Or.inl rfl,
              fun _ => ⟨rfl, rfl⟩, rfl⟩

/-- The batch event stream is exactly the concatenation, in file-list
order, of the per-file event subsequences. -/
theorem condenseFiles_fst (env : Env) (options : CondenseOptions) (lg : Logger)
    (files : List String) :
    (condenseFiles env options lg files).1 = files.flatMap (jobTrace env options lg) := by
  induction files with
  | nil => rfl
  | cons f rest ih =>
    simp only [condenseFiles]
    rw [condense_logger_eq, ih]
    simp [jobTrace, List.cons_append, List.append_assoc]

/-- Claim C2: for every job, the status events delivered to the status sink
form the linear sequence pending, loading, detecting, exporting followed by
exactly one terminal event (completed or error), with failures skipping the
remaining intermediate events, and the batch stream is the concatenation of
the per-job sequences in job-list order, so no event of job i+1 precedes
the terminal event of job i. -/
theorem c2_status_events (env : Env) (options : CondenseOptions) (lg : Logger)
    (files : List String) :
    (condenseFiles env options lg files).1 = files.flatMap (jobTrace env options lg)
    ∧ ∀ f : String, ValidJobTrace f (jobTrace env options lg f) :=
  ⟨condenseFiles_fst env options lg files, fun f => jobTrace_valid env options lg f⟩

/-- Claim C3: the batch orchestrator processes every job in the list to a
terminal state regardless of earlier failures, and the batch operation
itself returns no error (its embedding is a total function with no error
channel, matching the Go method, which has no return value). -/
theorem c3_batch_isolation (env : Env) (options : CondenseOptions) (lg : Logger)
    (files : List String) :
    (condenseFiles env options lg files).1 = files.flatMap (jobTrace env options lg)
    ∧ ∀ f : String, ∃ t e, (t = "completed" ∨ t = "error") ∧
        (jobTrace env options lg f).getLast? = some ⟨f, t, e⟩ := by
  refine ⟨condenseFiles_fst env options lg files, fun f => ?_⟩
  obtain ⟨n, t, e, _, _, ht, _, htr⟩ := jobTrace_valid env options lg f
  exact ⟨t, e, ht, by rw [htr, getLast?_append_single]⟩

/-- Claim C9: a nil progress callback or a nil status callback behaves
exactly like a no-op callback: the pipeline replaces a missing callback by
a no-op before any use, so the whole observable run is identical. -/
theorem c9_nil_callbacks {Ev : Type} (env : Env)
    (inFile outDir outSuffix outFormat : String) (threshold : ℚ)
    (minSilenceDuration padMs : ℤ) (pc : Option (ℚ → List Ev))
    (sc : Option (String → List Ev)) (lg : Logger) :
    CondenseWithOptions env inFile outDir outSuffix outFormat threshold
      minSilenceDuration padMs none sc lg =
      CondenseWithOptions env inFile outDir outSuffix outFormat threshold
        minSilenceDuration padMs (some fun _ => []) sc lg
    ∧ CondenseWithOptions env inFile outDir outSuffix outFormat threshold
        minSilenceDuration padMs pc none lg =
      CondenseWithOptions env inFile outDir outSuffix outFormat threshold
        minSilenceDuration padMs pc (some fun _ => []) lg :=
  ⟨rfl, rfl⟩

/-- Claim C10: on every return path that reaches the detection call, the
process-wide default logger after the call equals the logger in effect
before it, and the logger in effect during the detection call is the fresh
discarding handler. -/
theorem c10_logger_swap {Ev : Type} (env : Env)
    (inFile outDir outSuffix outFormat : String) (threshold : ℚ)
    (minSilenceDuration padMs : ℤ) (pc : Option (ℚ → List Ev))
    (sc : Option (String → List Ev)) (lg : Logger) (samples : List ℚ)
    (hdec : env.decode inFile = .ok samples)
    (hnd : env.newDetector ⟨"./silero_vad.onnx", 16000, threshold, minSilenceDuration, padMs⟩ = .ok ()) :
    (CondenseWithOptions env inFile outDir outSuffix outFormat threshold
      minSilenceDuration padMs pc sc lg).logger = lg
    ∧ (CondenseWithOptions env inFile outDir outSuffix outFormat threshold
      minSilenceDuration padMs pc sc lg).loggerAtDetect = some Logger.discardText := by
  refine ⟨condense_logger_eq env inFile outDir outSuffix outFormat threshold
    minSilenceDuration padMs pc sc lg, ?_⟩
  cases hdet : env.detect samples with
  | error e =>
    rw [condense_run_detect_error env inFile outDir outSuffix outFormat threshold
      minSilenceDuration padMs pc sc lg samples e hdec hnd hdet]
  | ok segments =>
    rcases eq_or_ne segments [] with hseg | hseg
    · subst hseg
      rw [condense_run_no_speech env inFile outDir outSuffix outFormat threshold
        minSilenceDuration padMs pc sc lg samples hdec hnd hdet]
    · cases hexp : env.runExport ["-y", "-i", inFile, "-vn", "-af", afOf segments,
        resolveOutName inFile outDir outSuffix outFormat] with
      | error e =>
        rw [condense_run_export_error env inFile outDir outSuffix outFormat threshold
          minSilenceDuration padMs pc sc lg samples segments e hdec hnd hdet hseg hexp]
      | ok u2 =>
        cases u2
        rw [condense_run_ok env inFile outDir outSuffix outFormat threshold
          minSilenceDuration padMs pc sc lg samples segments hdec hnd hdet hseg hexp]

/-- Witness for claim C10, at a run whose detection succeeds and at a run
whose detection fails: the logger is restored on both return paths. -/
theorem c10_witness :
    ((@CondenseWithOptions CondenseProgress
      ⟨fun _ => .ok [], fun _ => .ok (), fun _ => .ok [⟨1, 2⟩], [], fun _ => .ok ()⟩
      "a.wav" "" "_c" "wav" 1 200 200 none none (Logger.handler 7)).logger = Logger.handler 7
    ∧ (@CondenseWithOptions CondenseProgress
      ⟨fun _ => .ok [], fun _ => .ok (), fun _ => .ok [⟨1, 2⟩], [], fun _ => .ok ()⟩
      "a.wav" "" "_c" "wav" 1 200 200 none none (Logger.handler 7)).loggerAtDetect =
        some Logger.discardText)
    ∧ ((@CondenseWithOptions CondenseProgress
      ⟨fun _ => .ok [], fun _ => .ok (), fun _ => .error "boom", [], fun _ => .ok ()⟩
      "a.wav" "" "_c" "wav" 1 200 200 none none (Logger.handler 7)).logger = Logger.handler 7
    ∧ (@CondenseWithOptions CondenseProgress
      ⟨fun _ => .ok [], fun _ => .ok (), fun _ => .error "boom", [], fun _ => .ok ()⟩
      "a.wav" "" "_c" "wav" 1 200 200 none none (Logger.handler 7)).loggerAtDetect =
        some Logger.discardText) :=
  ⟨c10_logger_swap _ "a.wav" "" "_c" "wav" 1 200 200 none none (Logger.handler 7) [] rfl rfl,
    c10_logger_swap _ "a.wav" "" "_c" "wav" 1 200 200 none none (Logger.handler 7) [] rfl rfl⟩

/-- Claim C4: when decoding succeeds and the detector returns no segments,
the job ends in the error state with the "no speech detected" message, the
exporting stage is never entered, and no export invocation happens. -/
theorem c4_no_speech_terminal (env : Env) (options : CondenseOptions) (lg : Logger)
    (f : String) (samples : List ℚ)
    (hdec : env.decode f = .ok samples)
    (hnd : env.newDetector ⟨"./silero_vad.onnx", 16000, options.VadThreshold,
      options.MinSilenceDuration, options.SpeechPaddingMs⟩ = .ok ())
    (hdet : env.detect samples = .ok []) :
    jobTrace env options lg f =
      [⟨f, "pending", ""⟩, ⟨f, "loading", ""⟩, ⟨f, "detecting", ""⟩,
        ⟨f, "error", "no speech detected in file: " ++ f⟩]
    ∧ (CondenseWithOptions env f options.OutputDir options.OutputSuffix
        options.OutputFormat options.VadThreshold options.MinSilenceDuration
        options.SpeechPaddingMs (none : Option (ℚ → List CondenseProgress))
        (some (appStatusCallback f)) lg).result =
      .error ("no speech detected in file: " ++ f)
    ∧ (CondenseWithOptions env f options.OutputDir options.OutputSuffix
        options.OutputFormat options.VadThreshold options.MinSilenceDuration
        options.SpeechPaddingMs (none : Option (ℚ → List CondenseProgress))
        (some (appStatusCallback f)) lg).stages = ["loading", "detecting"]
    ∧ (CondenseWithOptions env f options.OutputDir options.OutputSuffix
        options.OutputFormat options.VadThreshold options.MinSilenceDuration
        options.SpeechPaddingMs (none : Option (ℚ → List CondenseProgress))
        (some (appStatusCallback f)) lg).exportCalls = [] := by
  have hrun := condense_run_no_speech env f options.OutputDir options.OutputSuffix
    options.OutputFormat options.VadThreshold options.MinSilenceDuration
    options.SpeechPaddingMs (none : Option (ℚ → List CondenseProgress))
    (some (appStatusCallback f)) lg samples hdec hnd hdet
  refine ⟨?_, ?_, ?_, ?_⟩
  · unfold jobTrace
    rw [hrun]
    rfl
  · rw [hrun]
  · rw [hrun]
  · rw [hrun]

/-- Witness for claim C4, at a concrete run whose detector reports no
speech: the terminal event is the classified error and nothing is exported. -/
theorem c4_witness :
    jobTrace ⟨fun _ => .ok [0], fun _ => .ok (), fun _ => .ok [], [], fun _ => .ok ()⟩
      ⟨"_c", "", "wav", 1, 200, 200⟩ (Logger.handler 0) "b.wav" =
      [⟨"b.wav", "pending", ""⟩, ⟨"b.wav", "loading", ""⟩, ⟨"b.wav", "detecting", ""⟩,
        ⟨"b.wav", "error", "no speech detected in file: " ++ "b.wav"⟩]
    ∧ (CondenseWithOptions ⟨fun _ => .ok [0], fun _ => .ok (), fun _ => .ok [], [],
        fun _ => .ok ()⟩ "b.wav" "" "_c" "wav" 1 200 200
        (none : Option (ℚ → List CondenseProgress))
        (some (appStatusCallback "b.wav")) (Logger.handler 0)).result =
      .error ("no speech detected in file: " ++ "b.wav")
    ∧ (CondenseWithOptions ⟨fun _ => .ok [0], fun _ => .ok (), fun _ => .ok [], [],
        fun _ => .ok ()⟩ "b.wav" "" "_c" "wav" 1 200 200
        (none : Option (ℚ → List CondenseProgress))
        (some (appStatusCallback "b.wav")) (Logger.handler 0)).stages = ["loading", "detecting"]
    ∧ (CondenseWithOptions ⟨fun _ => .ok [0], fun _ => .ok (), fun _ => .ok [], [],
        fun _ => .ok ()⟩ "b.wav" "" "_c" "wav" 1 200 200
        (none : Option (ℚ → List CondenseProgress))
        (some (appStatusCallback "b.wav")) (Logger.handler 0)).exportCalls = [] :=
  c4_no_speech_terminal _ ⟨"_c", "", "wav", 1, 200, 200⟩ (Logger.handler 0) "b.wav" [0]
    rfl rfl rfl

/-- Counterexample to claim C1 as stated: the detector returns the
overlapping, unsorted-by-endpoint pair [0,5], [3,7]; the pipeline hands
exactly this list to the filter-string construction, and it violates the
sorted/non-overlapping invariant, because no validator or merger runs
between detection and compilation. -/
theorem c1_counterexample :
    (@CondenseWithOptions CondenseProgress
      ⟨fun _ => .ok [], fun _ => .ok (), fun _ => .ok [⟨0, 5⟩, ⟨3, 7⟩], [], fun _ => .ok ()⟩
      "in.wav" "" "_c" "wav" 1 200 200 none none (Logger.handler 0)).compiledSegments =
      some [⟨0, 5⟩, ⟨3, 7⟩]
    ∧ nonOverlapB [⟨0, 5⟩, ⟨3, 7⟩] = false
    ∧ (@CondenseWithOptions CondenseProgress
      ⟨fun _ => .ok [], fun _ => .ok (), fun _ => .ok [⟨0, 5⟩, ⟨3, 7⟩], [], fun _ => .ok ()⟩
      "in.wav" "" "_c" "wav" 1 200 200 none none (Logger.handler 0)).exportCalls =
      [["-y", "-i", "in.wav", "-vn", "-af",
        "aselect=" ++ quoteS ++ "between(t,0.00,5.00)+between(t,3.00,7.00)" ++ quoteS ++
          ",asetpts=N/SR/TB", "in_c.wav"]] :=
  ⟨rfl, rfl, rfl⟩

/-- Claim C1 (amended): the pipeline performs no validation or merging; on
every run that reaches the compile step, the segment list handed to the
filter-string construction is exactly the detector-returned list, unchanged
and in the same order, so it is sorted and non-overlapping only when the
detector output already is. -/
theorem c1_amended {Ev : Type} (env : Env)
    (inFile outDir outSuffix outFormat : String) (threshold : ℚ)
    (minSilenceDuration padMs : ℤ) (pc : Option (ℚ → List Ev))
    (sc : Option (String → List Ev)) (lg : Logger) (samples : List ℚ)
    (segments : List SpeechSegment)
    (hdec : env.decode inFile = .ok samples)
    (hnd : env.newDetector ⟨"./silero_vad.onnx", 16000, threshold, minSilenceDuration, padMs⟩ = .ok ())
    (hdet : env.detect samples = .ok segments) (hne : segments ≠ []) :
    (CondenseWithOptions env inFile outDir outSuffix outFormat threshold
      minSilenceDuration padMs pc sc lg).compiledSegments = some segments := by
  cases hexp : env.runExport ["-y", "-i", inFile, "-vn", "-af", afOf segments,
      resolveOutName inFile outDir outSuffix outFormat] with
  | error e =>
    rw [condense_run_export_error env inFile outDir outSuffix outFormat threshold
      minSilenceDuration padMs pc sc lg samples segments e hdec hnd hdet hne hexp]
  | ok u2 =>
    cases u2
    rw [condense_run_ok env inFile outDir outSuffix outFormat threshold
      minSilenceDuration padMs pc sc lg samples segments hdec hnd hdet hne hexp]

/-- Witness for the amended claim C1, at a concrete detector output. -/
theorem c1_witness :
    (@CondenseWithOptions CondenseProgress
      ⟨fun _ => .ok [], fun _ => .ok (), fun _ => .ok [⟨2, 4⟩, ⟨1, 3⟩], [], fun _ => .ok ()⟩
      "w.wav" "" "_c" "wav" 1 200 200 none none (Logger.handler 0)).compiledSegments =
      some [⟨2, 4⟩, ⟨1, 3⟩] :=
  c1_amended _ "w.wav" "" "_c" "wav" 1 200 200 none none (Logger.handler 0) []
    [⟨2, 4⟩, ⟨1, 3⟩] rfl rfl rfl (by decide)

/-- Claim C7: the filter compilation is a deterministic pure function of
the segment sequence: element-wise identical sequences produce identical
filter strings, hence byte-identical serialized output. -/
theorem c7_deterministic (s1 s2 : List SpeechSegment)
    (h : ∀ n, s1.get? n = s2.get? n) :
    afOf s1 = afOf s2 ∧ (afOf s1).data = (afOf s2).data := by
  have hs : s1 = s2 := List.ext_get? h
  rw [hs]
  exact ⟨rfl, rfl⟩

/-- Witness for claim C7 at a concrete pair of element-wise equal lists. -/
theorem c7_witness :
    afOf [⟨1, 2⟩, ⟨5, 6⟩] = afOf [⟨1, 2⟩, ⟨5, 6⟩]
    ∧ (afOf [⟨1, 2⟩, ⟨5, 6⟩]).data = (afOf [⟨1, 2⟩, ⟨5, 6⟩]).data :=
  c7_deterministic [⟨1, 2⟩, ⟨5, 6⟩] [⟨1, 2⟩, ⟨5, 6⟩] (fun _ => rfl)

/-- Claim C5: the resolved destination path is the chosen output directory
(the own directory of the input path when `outputDir` is empty), joined
with the base name of the input stripped of its extension, followed by the
suffix, a dot and the format.  The hypotheses state that the chosen directory is nonempty
and that the literal concatenation is already a clean path, which is what
`filepath.Join` leaves unchanged. -/
theorem c5_resolve_spec (inPath outDir outSuffix outFormat : String)
    (hne : (if outDir = "" then dirGo inPath else outDir) ≠ "")
    (hclean : cleanGo ((if outDir = "" then dirGo inPath else outDir) ++ "/" ++
        (trimSuffixGo (baseGo inPath) (extGo inPath) ++ outSuffix ++ "." ++ outFormat)) =
      (if outDir = "" then dirGo inPath else outDir) ++ "/" ++
        (trimSuffixGo (baseGo inPath) (extGo inPath) ++ outSuffix ++ "." ++ outFormat)) :
    resolveOutName inPath outDir outSuffix outFormat =
      (if outDir = "" then dirGo inPath else outDir) ++ "/" ++
        (trimSuffixGo (baseGo inPath) (extGo inPath) ++ outSuffix ++ "." ++ outFormat) := by
  unfold resolveOutName joinGo
  rw [if_pos hne]
  exact hclean

/-- Witness for claim C5: the two example resolutions from the spec. -/
theorem c5_witness :
    resolveOutName "/a/b/song.wav" "" "_condensed" "mp3" = "/a/b/song_condensed.mp3"
    ∧ resolveOutName "/a/b/song.wav" "/out" "_c" "wav" = "/out/song_c.wav" := by
  constructor
  · have h := c5_resolve_spec "/a/b/song.wav" "" "_condensed" "mp3" (by decide) (by decide)
    exact h.trans (by decide)
  · have h := c5_resolve_spec "/a/b/song.wav" "/out" "_c" "wav" (by decide) (by decide)
    exact h.trans (by decide)

/-- The compiled expression is absent exactly for the empty segment list. -/
theorem compileAST_eq_none (l : List SpeechSegment) : compileAST l = none ↔ l = [] := by
  cases l with
  | nil => simp [compileAST]
  | cons s rest =>
    simp only [compileAST]
    cases compileAST rest <;> simp

/-- Unfolding of the separator join on a list with at least two elements. -/
theorem joinSep_cons (sep x : String) (l : List String) (h : l ≠ []) :
    joinSep sep (x :: l) = x ++ sep ++ joinSep sep l := by
  cases l with
  | nil => exact absurd rfl h
  | cons y ys => rfl

/-- The serialization of the compiled expression is exactly the
plus-joined list of `between` cuts the source builds. -/
theorem compileAST_serialize : ∀ (segs : List SpeechSegment) (a : FilterAST),
    compileAST segs = some a → a.serialize = joinSep "+" (cutsOf segs) := by
  intro segs
  induction segs with
  | nil => intro a h; simp [compileAST] at h
  | cons s rest ih =>
    intro a h
    cases hr : compileAST rest with
    | none =>
      have hrest : rest = [] := (compileAST_eq_none rest).mp hr
      subst hrest
      simp only [compileAST] at h
      cases h
      rfl
    | some b =>
      simp only [compileAST, hr] at h
      cases h
      have hrest : rest ≠ [] := by
        intro hh
        subst hh
        simp [compileAST] at hr
      have hcuts : cutsOf rest ≠ [] := by
        simp [cutsOf, hrest]
      rw [FilterAST.serialize, ih b hr]
      rw [show cutsOf (s :: rest) = betweenCut s :: cutsOf rest from rfl]
      rw [joinSep_cons _ _ _ hcuts]
      rfl

/-- Every filter expression evaluates to a nonnegative value. -/
theorem eval_nonneg (a : FilterAST) (t : ℚ) : 0 ≤ a.eval t := by
  induction a with
  | between x y =>
    simp only [FilterAST.eval]
    split
    · norm_num
    · norm_num
  | sum l r ihl ihr =>
    simpa [FilterAST.eval] using add_nonneg ihl ihr

/-- A `between` term is nonzero exactly on the closed interval denoted by
its two centisecond numerals. -/
theorem eval_between_ne (c1 c2 : ℤ) (t : ℚ) :
    (FilterAST.between c1 c2).eval t ≠ 0 ↔ ((c1 : ℚ) / 100 ≤ t ∧ t ≤ (c2 : ℚ) / 100) := by
  by_cases hp : ((c1 : ℚ) / 100 ≤ t ∧ t ≤ (c2 : ℚ) / 100)
  · simp [FilterAST.eval, hp]
  · simp [FilterAST.eval, hp]

/-- A sum of two nonnegative rationals is nonzero exactly when one of the
two summands is. -/
theorem add_ne_zero_iff_of_nonneg (x y : ℚ) (hx : 0 ≤ x) (hy : 0 ≤ y) :
    x + y ≠ 0 ↔ (x ≠ 0 ∨ y ≠ 0) := by
  constructor
  · intro h
    by_contra hc
    push_neg at hc
    rw [hc.1, hc.2, add_zero] at h
    exact h rfl
  · rintro (h | h) hz
    · exact h (le_antisymm (by linarith) hx)
    · exact h (le_antisymm (by linarith) hy)

/-- The compiled expression selects a time exactly when it lies in the
interval of some segment, with the interval bounds taken at the serialized
(two-decimal) precision. -/
theorem compileAST_eval : ∀ (segs : List SpeechSegment) (a : FilterAST),
    compileAST segs = some a → ∀ t : ℚ,
      (a.eval t ≠ 0 ↔
        ∃ s ∈ segs, round2val s.SpeechStartAt ≤ t ∧ t ≤ round2val s.SpeechEndAt) := by
  intro segs
  induction segs with
  | nil => intro a h; simp [compileAST] at h
  | cons s rest ih =>
    intro a h t
    cases hr : compileAST rest with
    | none =>
      have hrest : rest = [] := (compileAST_eq_none rest).mp hr
      subst hrest
      simp only [compileAST] at h
      cases h
      rw [eval_between_ne]
      simp [round2val]
    | some b =>
      simp only [compileAST, hr] at h
      cases h
      have hb := eval_nonneg (FilterAST.between (round2cent s.SpeechStartAt)
        (round2cent s.SpeechEndAt)) t
      have hr2 := eval_nonneg b t
      have hsum := add_ne_zero_iff_of_nonneg
        ((FilterAST.between (round2cent s.SpeechStartAt) (round2cent s.SpeechEndAt)).eval t)
        (b.eval t) hb hr2
      rw [show (FilterAST.sum (FilterAST.between (round2cent s.SpeechStartAt)
        (round2cent s.SpeechEndAt)) b).eval t =
        (FilterAST.between (round2cent s.SpeechStartAt)
          (round2cent s.SpeechEndAt)).eval t + b.eval t from rfl]
      rw [hsum, eval_between_ne, ih b hr t]
      constructor
      · rintro (hp | ⟨s2, hs2, hp2⟩)
        · exact ⟨s, List.mem_cons_self s rest, hp.1, hp.2⟩
        · exact ⟨s2, List.mem_cons_of_mem s hs2, hp2⟩
      · rintro ⟨s2, hs2, hp2⟩
        rcases List.mem_cons.mp hs2 with hh | hh
        · subst hh
          exact Or.inl ⟨hp2.1, hp2.2⟩
        · exact Or.inr ⟨s2, hh, hp2⟩

/-- Claim C6: for every non-empty segment sequence, the built filter string
wraps the serialization of a disjunction of one `between` term per segment
inside the selection step followed by the timestamp-renumbering step
(`asetpts=N/SR/TB`), that expression is nonzero exactly at the times lying
in the interval of some segment at serialized precision, and every bound is
an integer number of centiseconds (two-decimal, 10 ms granularity). -/
theorem c6_filter_compiler (segs : List SpeechSegment) (hne : segs ≠ []) :
    ∃ ast : FilterAST, compileAST segs = some ast
    ∧ afOf segs = "aselect=" ++ quoteS ++ ast.serialize ++ quoteS ++ ",asetpts=N/SR/TB"
    ∧ (∀ t : ℚ, (ast.eval t ≠ 0 ↔
        ∃ s ∈ segs, round2val s.SpeechStartAt ≤ t ∧ t ≤ round2val s.SpeechEndAt))
    ∧ ∀ s ∈ segs, ∃ a b : ℤ,
        round2val s.SpeechStartAt = (a : ℚ) / 100 ∧ round2val s.SpeechEndAt = (b : ℚ) / 100 := by
  obtain ⟨ast, hast⟩ : ∃ a, compileAST segs = some a := by
    cases hc : compileAST segs with
    | none => exact absurd ((compileAST_eq_none segs).mp hc) hne
    | some a => exact ⟨a, rfl⟩
  refine ⟨ast, hast, ?_, compileAST_eval segs ast hast, ?_⟩
  · rw [afOf, compileAST_serialize segs ast hast]
  · intro s _
    exact ⟨round2cent s.SpeechStartAt, round2cent s.SpeechEndAt, rfl, rfl⟩

/-- Witness for claim C6 at a concrete two-segment sequence. -/
theorem c6_witness :
    ∃ ast : FilterAST, compileAST [⟨1, 2⟩, ⟨4, 6⟩] = some ast
    ∧ afOf [⟨1, 2⟩, ⟨4, 6⟩] =
        "aselect=" ++ quoteS ++ ast.serialize ++ quoteS ++ ",asetpts=N/SR/TB"
    ∧ (∀ t : ℚ, (ast.eval t ≠ 0 ↔
        ∃ s ∈ ([⟨1, 2⟩, ⟨4, 6⟩] : List SpeechSegment),
          round2val s.SpeechStartAt ≤ t ∧ t ≤ round2val s.SpeechEndAt))
    ∧ ∀ s ∈ ([⟨1, 2⟩, ⟨4, 6⟩] : List SpeechSegment), ∃ a b : ℤ,
        round2val s.SpeechStartAt = (a : ℚ) / 100 ∧ round2val s.SpeechEndAt = (b : ℚ) / 100 :=
  c6_filter_compiler [⟨1, 2⟩, ⟨4, 6⟩] (by decide)

/-- Coverage of a cons list splits into the head interval and the rest. -/
theorem coveredBy_cons (t : ℚ) (a : SpeechSegment) (l : List SpeechSegment) :
    coveredBy t (a :: l) ↔ segMem t a ∨ coveredBy t l := by
  unfold coveredBy
  constructor
  · rintro ⟨s, hsmem, hp⟩
    rcases List.mem_cons.mp hsmem with hh | hh
    · exact Or.inl (hh ▸ hp)
    · exact Or.inr ⟨s, hh, hp⟩
  · rintro (h | ⟨s, hsmem, hp⟩)
    · exact ⟨a, List.mem_cons_self a l, h⟩
    · exact ⟨s, List.mem_cons_of_mem a hsmem, hp⟩

/-- The coalescing pass neither drops nor adds covered time: on a list
sorted by start time whose head bounds all starts, the union of the output
intervals is pointwise the union of the input intervals. -/
theorem coalesceAux_covered (t : ℚ) :
    ∀ (l : List SpeechSegment) (prev : SpeechSegment),
    (∀ s ∈ l, prev.SpeechStartAt ≤ s.SpeechStartAt) → l.Sorted segLe →
    (coveredBy t (coalesceAux prev l) ↔ segMem t prev ∨ coveredBy t l) := by
  intro l
  induction l with
  | nil =>
    intro prev _ _
    rw [coalesceAux, coveredBy_cons]
  | cons b rest ih =>
    intro prev hle hs
    have hpb : prev.SpeechStartAt ≤ b.SpeechStartAt := hle b (List.mem_cons_self b rest)
    have hsr : rest.Sorted segLe := (List.sorted_cons.mp hs).2
    have hbr : ∀ s ∈ rest, segLe b s := (List.sorted_cons.mp hs).1
    by_cases hmerge : b.SpeechStartAt < prev.SpeechEndAt
    · simp only [coalesceAux, if_pos hmerge]
      rw [ih ⟨min prev.SpeechStartAt b.SpeechStartAt, max prev.SpeechEndAt b.SpeechEndAt⟩
        (fun s hsm => le_trans (min_le_left _ _) (hle s (List.mem_cons_of_mem b hsm))) hsr]
      have hkey : segMem t ⟨min prev.SpeechStartAt b.SpeechStartAt,
          max prev.SpeechEndAt b.SpeechEndAt⟩ ↔ segMem t prev ∨ segMem t b := by
        unfold segMem
        simp only
        constructor
        · rintro ⟨h1, h2⟩
          by_cases hpe : t ≤ prev.SpeechEndAt
          · refine Or.inl ⟨?_, hpe⟩
            rw [min_eq_left hpb] at h1
            exact h1
          · refine Or.inr ⟨?_, ?_⟩
            · have := not_le.mp hpe
              linarith
            · rcases le_max_iff.mp h2 with h | h
              · have := not_le.mp hpe
                linarith
              · exact h
        · rintro (⟨h1, h2⟩ | ⟨h1, h2⟩)
          · exact ⟨le_trans (min_le_left _ _) h1, le_trans h2 (le_max_left _ _)⟩
          · exact ⟨le_trans (min_le_right _ _) h1, le_trans h2 (le_max_right _ _)⟩
      rw [hkey, coveredBy_cons]
      tauto
    · simp only [coalesceAux, if_neg hmerge]
      rw [coveredBy_cons, ih b hbr hsr, coveredBy_cons]

/-- The head of a coalesced list keeps the start time of the first
segment, provided that start bounds every start in the list. -/
theorem coalesceAux_head : ∀ (l : List SpeechSegment) (prev : SpeechSegment),
    (∀ s ∈ l, prev.SpeechStartAt ≤ s.SpeechStartAt) →
    ∃ e tl, coalesceAux prev l = ⟨prev.SpeechStartAt, e⟩ :: tl := by
  intro l
  induction l with
  | nil => intro prev _; exact ⟨prev.SpeechEndAt, [], rfl⟩
  | cons b rest ih =>
    intro prev hle
    have hpb : prev.SpeechStartAt ≤ b.SpeechStartAt := hle b (List.mem_cons_self b rest)
    by_cases hmerge : b.SpeechStartAt < prev.SpeechEndAt
    · simp only [coalesceAux, if_pos hmerge]
      obtain ⟨e, tl, heq⟩ := ih
        ⟨min prev.SpeechStartAt b.SpeechStartAt, max prev.SpeechEndAt b.SpeechEndAt⟩
        (fun s hsm => le_trans (min_le_left _ _) (hle s (List.mem_cons_of_mem b hsm)))
      rw [heq]
      exact ⟨e, tl, by rw [min_eq_left hpb]⟩
    · simp only [coalesceAux, if_neg hmerge]
      exact ⟨prev.SpeechEndAt, coalesceAux b rest, rfl⟩

/-- Unfolding of the normalization check on a list with two or more
segments. -/
theorem nonOverlapB_cons_cons (a b : SpeechSegment) (l : List SpeechSegment) :
    nonOverlapB (a :: b :: l) = true ↔
      (a.SpeechStartAt ≤ b.SpeechStartAt ∧ a.SpeechEndAt ≤ b.SpeechStartAt) ∧
        nonOverlapB (b :: l) = true := by
  simp [nonOverlapB, Bool.and_eq_true, decide_eq_true_eq]

/-- The coalescing pass produces a sorted, pairwise non-overlapping list. -/
theorem coalesceAux_nonOverlap : ∀ (l : List SpeechSegment) (prev : SpeechSegment),
    (∀ s ∈ l, prev.SpeechStartAt ≤ s.SpeechStartAt) → l.Sorted segLe →
    nonOverlapB (coalesceAux prev l) = true := by
  intro l
  induction l with
  | nil => intro prev _ _; rfl
  | cons b rest ih =>
    intro prev hle hs
    have hpb : prev.SpeechStartAt ≤ b.SpeechStartAt := hle b (List.mem_cons_self b rest)
    have hsr : rest.Sorted segLe := (List.sorted_cons.mp hs).2
    have hbr : ∀ s ∈ rest, segLe b s := (List.sorted_cons.mp hs).1
    by_cases hmerge : b.SpeechStartAt < prev.SpeechEndAt
    · simp only [coalesceAux, if_pos hmerge]
      exact ih ⟨min prev.SpeechStartAt b.SpeechStartAt, max prev.SpeechEndAt b.SpeechEndAt⟩
        (fun s hsm => le_trans (min_le_left _ _) (hle s (List.mem_cons_of_mem b hsm))) hsr
    · simp only [coalesceAux, if_neg hmerge]
      obtain ⟨e, tl, heq⟩ := coalesceAux_head rest b hbr
      have h2 : nonOverlapB (⟨b.SpeechStartAt, e⟩ :: tl) = true := by
        rw [← heq]
        exact ih b hbr hsr
      rw [heq, nonOverlapB_cons_cons]
      exact ⟨⟨hpb, not_lt.mp hmerge⟩, h2⟩

/-- The modelled validator preserves the union of the intervals pointwise. -/
theorem mergeSegments_covered (segs : List SpeechSegment) (t : ℚ) :
    coveredBy t (mergeSegments segs) ↔ coveredBy t segs := by
  unfold mergeSegments
  have hperm := List.perm_insertionSort segLe segs
  cases hs : List.insertionSort segLe segs with
  | nil =>
    rw [hs] at hperm
    have hnil : segs = [] := hperm.symm.eq_nil
    subst hnil
    simp [coveredBy]
  | cons s rest =>
    rw [hs] at hperm
    have hsorted : List.Sorted segLe (s :: rest) := by
      rw [← hs]
      exact List.sorted_insertionSort segLe segs
    rw [coalesceAux_covered t rest s (List.sorted_cons.mp hsorted).1
      (List.sorted_cons.mp hsorted).2, ← coveredBy_cons]
    unfold coveredBy
    constructor
    · rintro ⟨x, hx, hp⟩
      exact ⟨x, hperm.mem_iff.mp hx, hp⟩
    · rintro ⟨x, hx, hp⟩
      exact ⟨x, hperm.mem_iff.mpr hx, hp⟩

/-- The modelled validator always outputs a sorted, non-overlapping list. -/
theorem mergeSegments_nonOverlap (segs : List SpeechSegment) :
    nonOverlapB (mergeSegments segs) = true := by
  unfold mergeSegments
  cases hs : List.insertionSort segLe segs with
  | nil => rfl
  | cons s rest =>
    have hsorted : List.Sorted segLe (s :: rest) := by
      rw [← hs]
      exact List.sorted_insertionSort segLe segs
    exact coalesceAux_nonOverlap rest s (List.sorted_cons.mp hsorted).1
      (List.sorted_cons.mp hsorted).2

/-- Claim C8: for segment sequences with at least one overlapping pair, the
modelled sort-and-merge validator covers exactly the union of the input
intervals (no covered time is dropped or added), and its output is sorted
and pairwise non-overlapping, so the sum of its interval lengths is the
measure of that union. -/
theorem c8_merge_union (segs : List SpeechSegment)
    (hov : ∃ a ∈ segs, ∃ b ∈ segs, a ≠ b ∧
      max a.SpeechStartAt b.SpeechStartAt < min a.SpeechEndAt b.SpeechEndAt) :
    (∀ t : ℚ, coveredBy t (mergeSegments segs) ↔ coveredBy t segs)
    ∧ nonOverlapB (mergeSegments segs) = true :=
  ⟨fun t => mergeSegments_covered segs t, mergeSegments_nonOverlap segs⟩

/-- Witness for claim C8 at a concrete overlapping pair. -/
theorem c8_witness :
    (∀ t : ℚ, coveredBy t (mergeSegments [⟨2, 9⟩, ⟨4, 11⟩]) ↔
      coveredBy t [⟨2, 9⟩, ⟨4, 11⟩])
    ∧ nonOverlapB (mergeSegments [⟨2, 9⟩, ⟨4, 11⟩]) = true :=
  c8_merge_union [⟨2, 9⟩, ⟨4, 11⟩] (by decide)
